import Mathlib

/-!
Shallow embedding of the country/region expansion logic of the scdb
downloader (Go). The functions `allCountries`, `regionMap`,
`getAllCountries`, `expandCountries` and `removeDuplicates` are
translated from the Go source; Go's `map[string][]string` is embedded
as an association list (lookup only, keys unique), Go's fallible
`([]string, error)` return as `Except String (List String)`, and Go's
`strings.ToLower` / `strings.ToUpper` as per-character ASCII case
mapping (all tokens the table can match are ASCII, where the two agree).
-/

namespace Scdb

/-- Master list of country codes, in the order of the Go source
(`allCountries`). -/
def allCountries : List String :=
  ["AFG", "DZ", "AND", "RA", "ARM", "AUS", "A", "AZ", "BRN", "BY", "B", "BZ", "BIH",
   "BR", "BG", "CDN", "RCH", "CO", "HR", "CY", "CZ", "DK", "EC", "ET", "ES2", "EST",
   "FJI", "FI", "FR", "GF", "GE", "D", "GBZ", "GR", "GP", "GT", "GUY", "HN", "HK",
   "H", "IS", "IND", "IR", "IRQ", "IRL", "IL", "I", "J", "JOR", "KZ", "KWT", "KS",
   "LAO", "LV", "RL", "LI", "LT", "L", "MO", "MAL", "M", "MQ", "MS", "MEX", "MD",
   "MGL", "MA", "NAM", "NL", "NZ", "MK", "NO", "OM", "PK", "PA", "PY", "PE", "RP",
   "PL", "P", "Q", "RO", "RUS", "RWA", "RE", "RSM", "KSA", "SRB", "SGP", "SK", "SLO",
   "ZA", "ROK", "ES", "SE", "CH", "RCT", "T", "TT", "TN", "TR", "UA", "UAE", "GB",
   "USA", "ROU", "UZ", "VN", "Z", "ZW"]

/-- Regional presets (`regionMap` in the Go source), embedded as an
association list; the Go map is only ever looked up by key. -/
def regionMap : List (String × List String) :=
  [("africa",       ["AFG", "DZ", "ET", "MA", "NAM", "ZA", "RWA", "TN", "Z", "ZW"]),
   ("asia",         ["ARM", "AZ", "BRN", "HK", "IND", "IR", "IRQ", "IL", "J", "JOR", "KZ", "KWT", "KS", "LAO", "MAL", "MO", "MGL", "OM", "PK", "RP", "SGP", "ROK", "RCT", "T", "UAE", "UZ", "VN"]),
   ("europe",       ["AND", "A", "BY", "B", "BIH", "BG", "HR", "CY", "CZ", "DK", "EST", "FI", "FR", "GE", "D", "GBZ", "GR", "H", "IS", "IRL", "I", "LV", "RL", "LI", "LT", "L", "M", "MK", "NO", "PL", "P", "RO", "RUS", "RSM", "SRB", "SK", "SLO", "ES", "SE", "CH", "TR", "UA", "GB"]),
   ("northamerica", ["CDN", "USA", "MEX", "GT", "HN", "BZ", "PA", "TT"]),
   ("southamerica", ["RA", "BR", "RCH", "CO", "EC", "GUY", "PY", "PE", "ROU"]),
   ("oceania",      ["AUS", "FJI", "NZ"]),
   ("dach",         ["D", "A", "CH"]),
   ("benelux",      ["B", "NL", "L"]),
   ("westeurope",   ["B", "NL", "L", "FR", "D", "A", "CH", "I", "ES", "P", "GB", "IRL"]),
   ("easteurope",   ["PL", "CZ", "SK", "H", "RO", "BG", "HR", "SLO", "EST", "LV", "LT", "BY", "UA", "RUS"]),
   ("scandinavia",  ["SE", "NO", "DK", "FI", "IS"])]

/-- `getAllCountries` of the Go source: returns the master list. -/
def getAllCountries : List String := allCountries

/-- ASCII lower-casing of a string, per character; embeds Go's
`strings.ToLower` on the ASCII tokens relevant here. -/
def strLower (s : String) : String := String.mk (s.data.map Char.toLower)

/-- ASCII upper-casing of a string, per character; embeds Go's
`strings.ToUpper` on the ASCII tokens relevant here. -/
def strUpper (s : String) : String := String.mk (s.data.map Char.toUpper)

/-- Lookup of `regionMap[key]` (Go map access with the `exists` flag). -/
def lookupRegion (key : String) : Option (List String) :=
  (regionMap.find? (fun p => p.1 == key)).map Prod.snd

/-- The inner loop of `expandCountries` over `allCountries`: the first
`validCode` with `strings.ToUpper(item) == validCode`, if any. -/
def findCountry (item : String) : Option String :=
  allCountries.find? (fun validCode => strUpper item == validCode)

/-- One iteration of the `expandCountries` loop body on a single token:
region lookup on the lower-cased token first, otherwise country-code
lookup; `none` when the token resolves to neither. -/
def resolveToken (item : String) : Option (List String) :=
  match lookupRegion (strLower item) with
  | some countries => some countries
  | none => (findCountry item).map (fun code => [code])

/-- The accumulation loop of `expandCountries`: resolves each token in
order, concatenating the resolved code lists; fails on the first
unresolvable token with the Go error message
`"invalid country/region: %s"`. -/
def expandTokens : List String → Except String (List String)
  | [] => Except.ok []
  | item :: rest =>
    match resolveToken item with
    | some countries => (expandTokens rest).map (fun r => countries ++ r)
    | none => Except.error ("invalid country/region: " ++ item)

/-- The loop of `removeDuplicates`, with the Go `keys` set embedded as
the list `seen` of values already emitted. -/
def removeDupAux (seen : List String) : List String → List String
  | [] => []
  | country :: rest =>
    if country ∈ seen then removeDupAux seen rest
    else country :: removeDupAux (country :: seen) rest

/-- `removeDuplicates` of the Go source: keeps the first occurrence of
each value. -/
def removeDuplicates (countries : List String) : List String :=
  removeDupAux [] countries

/-- `expandCountries` of the Go source: expands regional presets to
individual country codes, then deduplicates; all-or-nothing on error. -/
def expandCountries (input : List String) : Except String (List String) :=
  (expandTokens input).map removeDuplicates

/-- Spec-side characterisation of deduplication, written from the spec's
words: a sequence containing each distinct input value exactly once, in
order of first occurrence in the input. -/
def firstOccurrences : List String → List String
  | [] => []
  | a :: l => a :: firstOccurrences (l.filter (fun b => b ≠ a))
termination_by l => l.length
decreasing_by
  simp_wf
  exact Nat.lt_succ_of_le (List.length_filter_le _ _)

/-- The 43-element expansion the spec gives for the `europe` region. -/
def europeExpected : List String :=
  ["AND", "A", "BY", "B", "BIH", "BG", "HR", "CY", "CZ", "DK", "EST", "FI", "FR",
   "GE", "D", "GBZ", "GR", "H", "IS", "IRL", "I", "LV", "RL", "LI", "LT", "L",
   "M", "MK", "NO", "PL", "P", "RO", "RUS", "RSM", "SRB", "SK", "SLO", "ES",
   "SE", "CH", "TR", "UA", "GB"]

/-- Mapping `Except.map` over a success value. -/
theorem exceptMap_ok {f : List String → List String} {a : List String} :
    (Except.ok a : Except String (List String)).map f = Except.ok (f a) := rfl

/-- Mapping `Except.map` over an error value. -/
theorem exceptMap_error {f : List String → List String} {e : String} :
    (Except.error e : Except String (List String)).map f = Except.error e := rfl

/-- The deduplication loop computes exactly the first-occurrence
subsequence of the input not yet seen. -/
theorem removeDupAux_eq_firstOccurrences (l : List String) :
    ∀ seen, removeDupAux seen l = firstOccurrences (l.filter (fun b => b ∉ seen)) := by
  induction l with
  | nil => intro seen; rw [removeDupAux, List.filter_nil, firstOccurrences]
  | cons c rest ih =>
    intro seen
    by_cases hc : c ∈ seen
    · rw [removeDupAux, if_pos hc, ih, List.filter_cons]
      simp [hc]
    · rw [removeDupAux, if_neg hc, ih, List.filter_cons]
      have hcp : (decide (c ∉ seen)) = true := by simp [hc]
      rw [hcp, if_pos rfl, firstOccurrences]
      congr 1
      rw [List.filter_filter]
      congr 1
      apply List.filter_congr
      intro b _
      by_cases h1 : b = c <;> by_cases h2 : b ∈ seen <;> simp [h1, h2]

/-- Go's `removeDuplicates` matches the spec's first-occurrence
characterisation. -/
theorem removeDuplicates_eq_firstOccurrences (x : List String) :
    removeDuplicates x = firstOccurrences x := by
  rw [removeDuplicates, removeDupAux_eq_firstOccurrences]
  congr 1
  simp

/-- Membership in the deduplication loop's output. -/
theorem mem_removeDupAux (l : List String) :
    ∀ seen a, a ∈ removeDupAux seen l ↔ a ∈ l ∧ a ∉ seen := by
  induction l with
  | nil => intro seen a; simp [removeDupAux]
  | cons c rest ih =>
    intro seen a
    by_cases hc : c ∈ seen
    · rw [removeDupAux, if_pos hc, ih]
      constructor
      · rintro ⟨h1, h2⟩
        exact ⟨List.mem_cons_of_mem _ h1, h2⟩
      · rintro ⟨h1, h2⟩
        rcases List.mem_cons.mp h1 with rfl | h1
        · exact absurd hc h2
        · exact ⟨h1, h2⟩
    · rw [removeDupAux, if_neg hc, List.mem_cons, ih]
      constructor
      · rintro (rfl | ⟨h1, h2⟩)
        · exact ⟨List.mem_cons_self _ _, hc⟩
        · exact ⟨List.mem_cons_of_mem _ h1, fun hs => h2 (List.mem_cons_of_mem _ hs)⟩
      · rintro ⟨h1, h2⟩
        by_cases hac : a = c
        · exact Or.inl hac
        · rcases List.mem_cons.mp h1 with h | h
          · exact absurd h hac
          · refine Or.inr ⟨h, fun hs => ?_⟩
            rcases List.mem_cons.mp hs with h' | h'
            · exact hac h'
            · exact h2 h'

/-- The deduplication loop's output has no duplicates. -/
theorem nodup_removeDupAux (l : List String) :
    ∀ seen, (removeDupAux seen l).Nodup := by
  induction l with
  | nil => intro seen; simp [removeDupAux]
  | cons c rest ih =>
    intro seen
    by_cases hc : c ∈ seen
    · rw [removeDupAux, if_pos hc]
      exact ih seen
    · rw [removeDupAux, if_neg hc]
      refine List.nodup_cons.mpr ⟨fun hmem => ?_, ih _⟩
      exact ((mem_removeDupAux rest _ c).mp hmem).2 (List.mem_cons_self _ _)

/-- The deduplication loop fixes lists that are already duplicate-free
and disjoint from the seen set. -/
theorem removeDupAux_fixed (l : List String) :
    ∀ seen, l.Nodup → (∀ a ∈ l, a ∉ seen) → removeDupAux seen l = l := by
  induction l with
  | nil => intro seen _ _; rfl
  | cons c rest ih =>
    intro seen hnd hdisj
    rw [removeDupAux, if_neg (hdisj c (List.mem_cons_self _ _))]
    congr 1
    refine ih _ (List.nodup_cons.mp hnd).2 ?_
    intro a ha hs
    rcases List.mem_cons.mp hs with rfl | hs'
    · exact (List.nodup_cons.mp hnd).1 ha
    · exact hdisj a (List.mem_cons_of_mem _ ha) hs'

/-- `removeDuplicates` is idempotent. -/
theorem removeDuplicates_idem (x : List String) :
    removeDuplicates (removeDuplicates x) = removeDuplicates x :=
  removeDupAux_fixed (removeDuplicates x) [] (nodup_removeDupAux x [])
    (fun a _ h => (List.not_mem_nil a) h)

/-- `find?` with an equality test finds a member itself. -/
theorem find?_beq_self {a : String} :
    ∀ {l : List String}, a ∈ l → l.find? (fun x => a == x) = some a := by
  intro l h
  induction l with
  | nil => cases h
  | cons b t ih =>
    by_cases hab : a = b
    · subst hab
      exact List.find?_cons_of_pos _ (by simp)
    · rw [List.find?_cons_of_neg _ (by simp [hab])]
      rcases List.mem_cons.mp h with rfl | h'
      · exact absurd rfl hab
      · exact ih h'

/-- A region match takes priority in the loop body. -/
theorem resolveToken_eq_region {t : String} {cs : List String}
    (h : lookupRegion (strLower t) = some cs) : resolveToken t = some cs := by
  unfold resolveToken
  rw [h]

/-- Without a region match, the loop body falls back to the country-code
scan. -/
theorem resolveToken_eq_code {t : String} (h : lookupRegion (strLower t) = none) :
    resolveToken t = (findCountry t).map (fun code => [code]) := by
  unfold resolveToken
  rw [h]

/-- Every code of every region list is a master-list member. -/
theorem regionMap_sub_allCountries : ∀ p ∈ regionMap, ∀ c ∈ p.2, c ∈ allCountries := by
  decide

/-- Master codes hit no region key when lower-cased, and are fixed by
upper-casing. -/
theorem allCountries_selfRes :
    ∀ c ∈ allCountries, lookupRegion (strLower c) = none ∧ strUpper c = c := by
  decide

/-- Looking a region key up returns that region's own list. -/
theorem lookupRegion_self : ∀ p ∈ regionMap, lookupRegion p.1 = some p.2 := by
  decide

/-- Region keys are already lower-case. -/
theorem regionMap_lower : ∀ p ∈ regionMap, strLower p.1 = p.1 := by
  decide

/-- Deduplicating a region list never empties it. -/
theorem regionMap_dedup_ne_nil : ∀ p ∈ regionMap, removeDuplicates p.2 ≠ [] := by
  decide

/-- Whatever a token resolves to consists of master-list codes. -/
theorem resolveToken_sub {t : String} {cs : List String} (h : resolveToken t = some cs) :
    ∀ c ∈ cs, c ∈ allCountries := by
  intro c hc
  cases hl : lookupRegion (strLower t) with
  | some countries =>
    rw [resolveToken_eq_region hl] at h
    injection h with h
    subst h
    rcases Option.map_eq_some'.mp hl with ⟨p, hfind, hsnd⟩
    exact regionMap_sub_allCountries p (List.mem_of_find?_eq_some hfind) c (hsnd ▸ hc)
  | none =>
    rw [resolveToken_eq_code hl] at h
    rcases Option.map_eq_some'.mp h with ⟨code, hfind, rfl⟩
    rcases List.mem_singleton.mp hc with rfl
    exact List.mem_of_find?_eq_some hfind

/-- A master-list code resolves to itself, as a singleton. -/
theorem resolveToken_code {c : String} (h : c ∈ allCountries) :
    resolveToken c = some [c] := by
  rcases allCountries_selfRes c h with ⟨h1, h2⟩
  rw [resolveToken_eq_code h1]
  unfold findCountry
  rw [h2, find?_beq_self h]
  rfl

/-- Unfolding the loop on a token that resolves. -/
theorem expandTokens_cons_some {t : String} {cs rest : List String}
    (h : resolveToken t = some cs) :
    expandTokens (t :: rest) = (expandTokens rest).map (fun r => cs ++ r) := by
  rw [expandTokens, h]

/-- Unfolding the loop on a token that does not resolve. -/
theorem expandTokens_cons_none {t : String} {rest : List String}
    (h : resolveToken t = none) :
    expandTokens (t :: rest) = .error ("invalid country/region: " ++ t) := by
  rw [expandTokens, h]

/-- When every token resolves, the loop succeeds with the concatenation
of the resolved lists, in token order. -/
theorem expandTokens_ok : ∀ (input : List String),
    (∀ t ∈ input, (resolveToken t).isSome) →
    expandTokens input = .ok (input.flatMap (fun t => (resolveToken t).getD [])) := by
  intro input
  induction input with
  | nil => intro _; rfl
  | cons t rest ih =>
    intro h
    rcases Option.isSome_iff_exists.mp (h t (List.mem_cons_self _ _)) with ⟨cs, hcs⟩
    rw [expandTokens_cons_some hcs, ih (fun u hu => h u (List.mem_cons_of_mem _ hu)),
        exceptMap_ok, List.flatMap_cons, hcs]
    rfl

/-- When some token fails to resolve, the loop fails with the Go error
message naming an unresolvable token of the input. -/
theorem expandTokens_error : ∀ (input : List String),
    (∃ t ∈ input, resolveToken t = none) →
    ∃ t ∈ input, resolveToken t = none ∧
      expandTokens input = .error ("invalid country/region: " ++ t) := by
  intro input
  induction input with
  | nil => rintro ⟨t, ht, _⟩; cases ht
  | cons c rest ih =>
    rintro ⟨t, ht, hres⟩
    cases hc : resolveToken c with
    | none =>
      exact ⟨c, List.mem_cons_self _ _, hc, expandTokens_cons_none hc⟩
    | some cs =>
      have htr : t ∈ rest := by
        rcases List.mem_cons.mp ht with rfl | h'
        · rw [hc] at hres; cases hres
        · exact h'
      rcases ih ⟨t, htr, hres⟩ with ⟨u, hu, hures, heq⟩
      refine ⟨u, List.mem_cons_of_mem _ hu, hures, ?_⟩
      rw [expandTokens_cons_some hc, heq, exceptMap_error]

/-- Every element of a successful loop result is a master-list code. -/
theorem expandTokens_mem : ∀ (x acc : List String), expandTokens x = .ok acc →
    ∀ c ∈ acc, c ∈ allCountries := by
  intro x
  induction x with
  | nil =>
    intro acc h c hc
    injection h with h
    subst h
    cases hc
  | cons t rest ih =>
    intro acc h c hc
    cases hres : resolveToken t with
    | none => rw [expandTokens_cons_none hres] at h; cases h
    | some cs =>
      rw [expandTokens_cons_some hres] at h
      cases hrest : expandTokens rest with
      | error e => rw [hrest, exceptMap_error] at h; cases h
      | ok acc' =>
        rw [hrest, exceptMap_ok] at h
        injection h with h
        subst h
        rcases List.mem_append.mp hc with h1 | h2
        · exact resolveToken_sub hres c h1
        · exact ih acc' hrest c h2

/-- A list of master codes expands to itself (before deduplication). -/
theorem expandTokens_self : ∀ (l : List String), (∀ c ∈ l, c ∈ allCountries) →
    expandTokens l = .ok l := by
  intro l
  induction l with
  | nil => intro _; rfl
  | cons c rest ih =>
    intro h
    rw [expandTokens_cons_some (resolveToken_code (h c (List.mem_cons_self _ _))),
        ih (fun u hu => h u (List.mem_cons_of_mem _ hu)), exceptMap_ok]
    rfl

/-- C1: `expandCountries` processes tokens in order: a token matching a
region key case-insensitively contributes that region's whole list, in
stored order, at the token's position; otherwise a matching country
token contributes the canonical stored code; the concatenation is then
deduplicated first-seen, and in particular
`expandCountries ["dach", "FR", "GB"] = ok ["D", "A", "CH", "FR", "GB"]`. -/
theorem expandCountries_order_spec :
    (∀ input : List String, (∀ t ∈ input, (resolveToken t).isSome) →
      expandCountries input =
        .ok (removeDuplicates (input.flatMap (fun t => (resolveToken t).getD [])))) ∧
    (∀ (t : String) (countries : List String),
      lookupRegion (strLower t) = some countries → resolveToken t = some countries) ∧
    (∀ t : String, lookupRegion (strLower t) = none →
      resolveToken t = (findCountry t).map (fun code => [code])) ∧
    expandCountries ["dach", "FR", "GB"] = .ok ["D", "A", "CH", "FR", "GB"] := by
  refine ⟨?_, fun t countries h => resolveToken_eq_region h,
    fun t h => resolveToken_eq_code h, rfl⟩
  intro input h
  rw [expandCountries, expandTokens_ok input h, exceptMap_ok]

/-- Witness for C1, at the input `["dach", "FR", "GB"]`. -/
theorem expandCountries_order_spec_witness :
    expandCountries ["dach", "FR", "GB"] =
      .ok (removeDuplicates ((["dach", "FR", "GB"] : List String).flatMap
        (fun t => (resolveToken t).getD []))) :=
  expandCountries_order_spec.1 ["dach", "FR", "GB"] (by decide)

/-- C2: `expandCountries ["europe"]` returns exactly the 43-element list
given by the spec, in that order, and that list does not contain `NL`. -/
theorem expandCountries_europe :
    expandCountries ["europe"] = .ok europeExpected ∧
    europeExpected.length = 43 ∧ "NL" ∉ europeExpected :=
  ⟨rfl, rfl, by decide⟩

/-- C3: an input containing a token that resolves to neither a region
nor a country makes the whole call fail with an error naming a literal
offending token (the embedding's `Except.error` carries no partial
result), and this is the only error condition: when every token
resolves, the call succeeds. -/
theorem expandCountries_error_spec :
    (∀ input : List String, (∃ t ∈ input, resolveToken t = none) →
      ∃ t ∈ input, resolveToken t = none ∧
        expandCountries input = .error ("invalid country/region: " ++ t)) ∧
    (∀ input : List String, (∀ t ∈ input, (resolveToken t).isSome) →
      ∃ r, expandCountries input = .ok r) ∧
    expandCountries ["INVALID"] = .error "invalid country/region: INVALID" ∧
    expandCountries ["unknownregion"] = .error "invalid country/region: unknownregion" := by
  refine ⟨?_, ?_, rfl, rfl⟩
  · intro input h
    rcases expandTokens_error input h with ⟨t, ht, hres, heq⟩
    exact ⟨t, ht, hres, by rw [expandCountries, heq, exceptMap_error]⟩
  · intro input h
    exact ⟨_, by rw [expandCountries, expandTokens_ok input h, exceptMap_ok]⟩

/-- Witness for C3, at the input `["INVALID"]`. -/
theorem expandCountries_error_spec_witness :
    ∃ t ∈ (["INVALID"] : List String), resolveToken t = none ∧
      expandCountries ["INVALID"] = .error ("invalid country/region: " ++ t) :=
  expandCountries_error_spec.1 ["INVALID"] ⟨"INVALID", by decide, by decide⟩

/-- C4: token resolution is case-insensitive and emits the canonical
stored uppercase code: any token whose upper-casing is a master code is
found as that code, and the spec's concrete examples hold. -/
theorem expandCountries_case_insensitive :
    (∀ item code : String, code ∈ allCountries → strUpper item = code →
      findCountry item = some code) ∧
    expandCountries ["DACH"] = .ok ["D", "A", "CH"] ∧
    expandCountries ["dach"] = .ok ["D", "A", "CH"] ∧
    expandCountries ["DaCh"] = .ok ["D", "A", "CH"] ∧
    expandCountries ["nl", "gb", "usa"] = .ok ["NL", "GB", "USA"] := by
  refine ⟨?_, rfl, rfl, rfl, rfl⟩
  intro item code hmem hup
  unfold findCountry
  rw [hup]
  exact find?_beq_self hmem

/-- Witness for C4, at the token `"nl"`. -/
theorem expandCountries_case_insensitive_witness :
    findCountry "nl" = some "NL" :=
  expandCountries_case_insensitive.1 "nl" "NL" (by decide) (by decide)

/-- C5: `removeDuplicates` returns each distinct input value exactly
once, in order of first occurrence (it equals the spec-side
`firstOccurrences`, is duplicate-free and membership-preserving), it is
idempotent, and consequently
`expandCountries ["NL", "NL", "B"] = ok ["NL", "B"]` and
`expandCountries ["dach", "D"] = ok ["D", "A", "CH"]`. -/
theorem removeDuplicates_spec :
    (∀ x : List String, removeDuplicates x = firstOccurrences x) ∧
    (∀ x : List String, (removeDuplicates x).Nodup) ∧
    (∀ (x : List String) (a : String), a ∈ removeDuplicates x ↔ a ∈ x) ∧
    (∀ x : List String, removeDuplicates (removeDuplicates x) = removeDuplicates x) ∧
    expandCountries ["NL", "NL", "B"] = .ok ["NL", "B"] ∧
    expandCountries ["dach", "D"] = .ok ["D", "A", "CH"] := by
  refine ⟨removeDuplicates_eq_firstOccurrences, fun x => nodup_removeDupAux x [],
    ?_, removeDuplicates_idem, rfl, rfl⟩
  intro x a
  rw [show removeDuplicates x = removeDupAux [] x from rfl, mem_removeDupAux]
  simp

/-- C6: every code of every region's list belongs to the master list,
and expanding a region name alone succeeds with a non-empty result made
of master-list codes. -/
theorem regionMap_coverage :
    ∀ p ∈ regionMap, (∀ c ∈ p.2, c ∈ getAllCountries) ∧
      ∃ r, expandCountries [p.1] = .ok r ∧ r ≠ [] ∧ ∀ c ∈ r, c ∈ getAllCountries := by
  intro p hp
  have hres : resolveToken p.1 = some p.2 :=
    resolveToken_eq_region (by rw [regionMap_lower p hp]; exact lookupRegion_self p hp)
  have hexp : expandTokens [p.1] = .ok p.2 := by
    rw [expandTokens_cons_some hres]
    show (Except.ok (p.2 ++ []) : Except String (List String)) = _
    rw [List.append_nil]
  refine ⟨regionMap_sub_allCountries p hp, removeDuplicates p.2, ?_,
    regionMap_dedup_ne_nil p hp, ?_⟩
  · rw [expandCountries, hexp, exceptMap_ok]
  · intro c hc
    exact regionMap_sub_allCountries p hp c ((mem_removeDupAux p.2 [] c).mp hc).1

/-- Witness for C6, at the region entry for `dach`. -/
theorem regionMap_coverage_witness :
    (∀ c ∈ (("dach", ["D", "A", "CH"]) : String × List String).2, c ∈ getAllCountries) ∧
      ∃ r, expandCountries [(("dach", ["D", "A", "CH"]) : String × List String).1] = .ok r ∧
        r ≠ [] ∧ ∀ c ∈ r, c ∈ getAllCountries :=
  regionMap_coverage ("dach", ["D", "A", "CH"]) (by decide)

/-- C7: `getAllCountries` returns the master list itself in its
canonical fixed order, with at least 100 entries and no duplicates. -/
theorem getAllCountries_spec :
    getAllCountries = allCountries ∧ 100 ≤ getAllCountries.length ∧
      getAllCountries.Nodup :=
  ⟨rfl, by decide, by decide⟩

/-- C8: no whitespace trimming: tokens carrying incidental whitespace
resolve to nothing, so `expandCountries [" NL ", " B "]` fails with the
error naming the first literal token. -/
theorem expandCountries_no_trim :
    expandCountries [" NL ", " B "] = .error "invalid country/region:  NL " ∧
    resolveToken " NL " = none ∧ resolveToken " B " = none :=
  ⟨rfl, rfl, rfl⟩

/-- C9: the empty token list expands to the empty result, with no
error. -/
theorem expandCountries_empty : expandCountries [] = .ok ([] : List String) := rfl

/-- C10: `expandCountries` is idempotent on its successful outputs:
re-expanding a successful result returns it unchanged. -/
theorem expandCountries_idempotent :
    ∀ x r : List String, expandCountries x = .ok r → expandCountries r = .ok r := by
  intro x r h
  rw [expandCountries] at h
  cases hx : expandTokens x with
  | error e => rw [hx, exceptMap_error] at h; cases h
  | ok acc =>
    rw [hx, exceptMap_ok] at h
    injection h with h'
    have hsub : ∀ c ∈ r, c ∈ allCountries := by
      intro c hc
      rw [← h'] at hc
      exact expandTokens_mem x acc hx c ((mem_removeDupAux acc [] c).mp hc).1
    have hnd : r.Nodup := h' ▸ nodup_removeDupAux acc []
    have hfix : removeDuplicates r = r :=
      removeDupAux_fixed r [] hnd (fun a _ hmem => (List.not_mem_nil a) hmem)
    rw [expandCountries, expandTokens_self r hsub, exceptMap_ok, hfix]

/-- Witness for C10, at the input `["dach"]` with output
`["D", "A", "CH"]`. -/
theorem expandCountries_idempotent_witness :
    expandCountries ["D", "A", "CH"] = .ok ["D", "A", "CH"] :=
  expandCountries_idempotent ["dach"] ["D", "A", "CH"] rfl

end Scdb
